import Mathlib

/-!
Shallow embedding of `src/standardize_fields.py` (cats-dashboard).

The script renames record keys via a fixed table `FIELD_MAPPING` and
coerces numeric-looking string values to numbers.  We model:
  * JSON scalar values as `JsonValue` (floats as exact rationals);
  * records as ordered association lists with Python-dict insertion
    semantics (`dictInsert`: overwriting an existing key keeps its
    original position, a new key is appended);
  * the stripping heuristic
    `value.replace('.','').replace('-','').replace('E+','').replace('e+','').isdigit()`
    character-exactly (`strippedChars`, `pyIsDigit`); note Python's
    `''.isdigit()` is `False`;
  * Python's `int(...)` / `float(...)` parsers restricted to the ASCII
    grammar (no whitespace, underscores, inf/nan: no such string can
    pass the heuristic, since those characters are neither digits nor
    stripped, so the restriction is exact on every string the script
    ever parses).
Digits are modelled as ASCII `0`-`9` (`Char.isDigit`).
-/

/-- A JSON scalar value as stored in a record field.  Floating-point
results of Python `float(...)` are modelled as exact rationals. -/
inductive JsonValue : Type
  | vStr (s : String)
  | vInt (n : Int)
  | vFloat (q : Rat)
  | vBool (b : Bool)
  | vNull
  deriving DecidableEq, Repr

/-- A record: an ordered list of key/value pairs, mirroring a Python
dict's insertion order. -/
abbrev Record := List (String × JsonValue)

/-- The FIELD_MAPPING table of the source, lines 11-140: legacy key
to canonical camelCase key. -/
def FIELD_MAPPING : List (String × String) := [
  ("LOC_ID", "locId"),
  ("Airport", "airportName"),
  ("City", "city"),
  ("State", "state"),
  ("Hub_FY25", "hubSize"),
  ("FYE", "fiscalYearEnd"),
  ("Date Filed", "dateFiled"),
  ("FYE_year", "fiscalYear"),
  ("NTAD_LAT_DECIMAL", "latitude"),
  ("NTAD_LONG_DECIMAL", "longitude"),
  ("passenger_airline_landing_fees", "passengerAirlineLandingFees"),
  ("terminal_arrival_rent_util", "terminalArrivalRentUtil"),
  ("terminal_apron_charges", "terminalApronCharges"),
  ("federal_inspection_fees", "federalInspectionFees"),
  ("other_passenger_aero_fees", "otherPassengerAeroFees"),
  ("Total Passenger Airline Aeronautical Revenue", "totalPassengerAeroRevenue"),
  ("landing_fees_cargo", "cargoLandingFees"),
  ("landing_fees_ga_mil", "gaAndMilitaryLandingFees"),
  ("fbo_revenue", "fboRevenue"),
  ("cargo_hangar_rentals", "cargoHangarRentals"),
  ("aviation_fuel_tax_retained", "aviationFuelTaxRetained"),
  ("fuel_sales_or_flowage", "fuelSalesOrFlowage"),
  ("security_reimb_fed", "federalSecurityReimbursement"),
  ("other_nonpassenger_aero", "otherNonpassengerAeroRevenue"),
  ("Total Non-Passenger Aeronautical Revenue", "totalNonpassengerAeroRevenue"),
  ("land_nonterminal_leases", "landAndNonterminalLeases"),
  ("terminal_food_bev", "terminalFoodAndBeverage"),
  ("terminal_retail_dutyfree", "terminalRetailAndDutyFree"),
  ("terminal_services_other", "terminalServicesAndOther"),
  ("rental_cars_excl_cfc", "rentalCarsExclCfc"),
  ("parking_ground_transport", "parkingAndGroundTransport"),
  ("hotel", "hotelRevenue"),
  ("other_nonaero", "otherNonAeroRevenue"),
  ("personnel_comp_benefits", "personnelCompensationAndBenefits"),
  ("communications_utilities", "communicationsAndUtilities"),
  ("supplies_materials", "suppliesAndMaterials"),
  ("contractual_services", "contractualServices"),
  ("insurance_claims_settlements", "insuranceClaimsAndSettlements"),
  ("other_operating_expenses", "otherOperatingExpenses"),
  ("depreciation", "depreciation"),
  ("Operating Income", "operatingIncome"),
  ("op_income", "totalOperatingIncome"),
  ("interest_income", "interestIncome"),
  ("interest_expense", "interestExpense"),
  ("grant_receipts", "grantReceipts"),
  ("pfc", "passengerFacilityCharges"),
  ("capital_contributions", "capitalContributions"),
  ("special_items_loss", "specialItemsLoss"),
  ("other_nonoperating_revenue", "otherNonoperatingRevenue"),
  ("net_assets_change", "netAssetsChange"),
  ("net_assets_beg", "netAssetsBeginning"),
  ("net_assets_end", "netAssetsEnd"),
  ("Airfield", "airfieldCapex"),
  ("Terminal", "terminalCapex"),
  ("Parking", "parkingCapex"),
  ("Roadways - Rail - Transit", "roadwaysRailTransitCapex"),
  ("Other Capital Expenditures", "otherCapitalExpenditures"),
  ("total_capex", "totalCapex"),
  ("Long Term Bonds", "longTermBonds"),
  ("Loans and interim financing", "loansAndInterimFinancing"),
  ("Special facility bonds", "specialFacilityBonds"),
  ("total_debt_end_year", "totalDebtEndYear"),
  ("restricted_debt_reserves", "restrictedDebtReserves"),
  ("restricted_renewals_repl", "restrictedRenewalsAndReplacements"),
  ("Restricted other", "restrictedOther"),
  ("Total Restricted Assets", "totalRestrictedAssets"),
  ("unrestricted_cash_investments", "unrestrictedCashAndInvestments"),
  ("Bond proceeds", "bondProceeds"),
  ("proceeds_sale_property", "proceedsSaleOfProperty"),
  ("debt_service_excl_coverage", "debtServiceExclCoverage"),
  ("debt_service_net_pfc", "debtServiceNetPfc"),
  ("enplanements", "enplanements"),
  ("Landed weights in pounds", "landedWeightsInPounds"),
  ("Signatory landing fee rate per 1000 lbs", "signatoryLandingFeeRatePer1000Lbs"),
  ("Annual aircraft operations", "annualAircraftOperations"),
  ("Passenger airline cost per enplanement", "passengerAirlineCostPerEnplanement"),
  ("Full time equivalent employees at end of year", "fullTimeEquivalentEmployees"),
  ("Security and law enforcement costs", "securityAndLawEnforcementCosts"),
  ("ARFF costs", "arffCosts"),
  ("Repairs and maintenance", "repairsAndMaintenance"),
  ("Marketing - Advertising - Promotions", "marketingAdvertisingPromotions"),
  ("aero_passenger_rev", "totalAeroPassengerRevenue"),
  ("aero_nonpassenger_rev", "totalAeroNonpassengerRevenue"),
  ("aero_total_rev", "totalAeronauticalRevenue"),
  ("nonaero_rev", "totalNonAeronauticalRevenue"),
  ("op_rev", "totalOperatingRevenue"),
  ("op_exp", "totalOperatingExpenses"),
  ("nonop_net_and_capital", "totalNonoperatingNetAndCapital"),
  ("capex_total", "totalCapitalExpenditures"),
  ("debt_total", "totalDebt"),
  ("restricted_assets_total", "totalRestrictedAssetsCalculated"),
  ("reporting_year_proceeds", "reportingYearProceeds"),
  ("debt_service_total", "totalDebtService"),
  ("kpi_cpe", "costPerEnplanement"),
  ("kpi_oper_margin", "operatingMargin")]

/-- Line 163, `FIELD_MAPPING.get(old_field, old_field)`: canonical key
if present, identity fallback otherwise. -/
def mapField (k : String) : String :=
  match FIELD_MAPPING.find? (fun p => p.1 = k) with
  | some p => p.2
  | none => k

/-- Python `s.replace(u + "+", "")` for `u` being `E` or `e`:
left-to-right single-pass removal of the two-character pattern. -/
def removeEPlus (u : Char) : List Char → List Char
  | [] => []
  | [a] => [a]
  | a :: b :: rest =>
    if a = u ∧ b = '+' then removeEPlus u rest
    else a :: removeEPlus u (b :: rest)

/-- The character list left by
`value.replace('.','').replace('-','').replace('E+','').replace('e+','')`
(line 166), applied in the source's order. -/
def strippedChars (s : String) : List Char :=
  removeEPlus 'e' (removeEPlus 'E'
    ((s.toList.filter (fun c => c ≠ '.')).filter (fun c => c ≠ '-')))

/-- Python `str.isdigit` on the ASCII fragment: nonempty and all digit
characters.  Crucially `''.isdigit()` is `False`. -/
def pyIsDigit (l : List Char) : Bool :=
  !l.isEmpty && l.all Char.isDigit

/-- The "purely numeric" heuristic of line 166. -/
def pureNumeric (s : String) : Bool :=
  pyIsDigit (strippedChars s)

/-- Substring containment over character lists (Python's `in`). -/
def containsSub (pat : List Char) : List Char → Bool
  | [] => decide (pat = [])
  | c :: cs => pat.isPrefixOf (c :: cs) || containsSub pat cs

/-- Python `pat in s` for strings. -/
def strContains (s pat : String) : Bool :=
  containsSub pat.toList s.toList

/-- Value of a digit string, most significant first. -/
def digitsVal (l : List Char) : Nat :=
  l.foldl (fun a c => a * 10 + (c.toNat - 48)) 0

/-- Parse a nonempty all-digit character list. -/
def parseNatDigits (l : List Char) : Option Nat :=
  if !l.isEmpty && l.all Char.isDigit then some (digitsVal l) else none

/-- Python `int(s)`: optional sign, then nonempty digits.  (Whitespace
and underscores are omitted: no heuristic-passing string contains
them.) -/
def pyInt (s : String) : Option Int :=
  match s.toList with
  | '-' :: rest => (parseNatDigits rest).map (fun n => -(n : Int))
  | '+' :: rest => (parseNatDigits rest).map (fun n => (n : Int))
  | l => (parseNatDigits l).map (fun n => (n : Int))

/-- Parse the unsigned mantissa of a Python float literal: digits with
an optional fractional part, or a bare fractional part.  Returns the
value and the unconsumed remainder. -/
def parseMantissa (l : List Char) : Option (Rat × List Char) :=
  let ip := l.takeWhile Char.isDigit
  let r1 := l.dropWhile Char.isDigit
  match r1 with
  | '.' :: r2 =>
    let fp := r2.takeWhile Char.isDigit
    let r3 := r2.dropWhile Char.isDigit
    if ip.isEmpty && fp.isEmpty then none
    else some ((digitsVal ip : Rat) + (digitsVal fp : Rat) / ((10 : Rat) ^ fp.length), r3)
  | _ => if ip.isEmpty then none else some ((digitsVal ip : Rat), r1)

/-- Scale a mantissa by `10^e` or `10^(-e)`. -/
def applyExp (m : Rat) (pos : Bool) (e : Nat) : Rat :=
  if pos then m * (10 : Rat) ^ e else m / (10 : Rat) ^ e

/-- Unsigned part of Python `float(s)`: mantissa followed by an
optional `e`/`E` exponent with optional sign. -/
def pyFloatCore (l : List Char) : Option Rat :=
  match parseMantissa l with
  | none => none
  | some (m, r) =>
    match r with
    | [] => some m
    | e :: r2 =>
      if e = 'e' ∨ e = 'E' then
        let signRest : Bool × List Char :=
          match r2 with
          | '+' :: t => (true, t)
          | '-' :: t => (false, t)
          | t => (true, t)
        let ds := signRest.2.takeWhile Char.isDigit
        let r4 := signRest.2.dropWhile Char.isDigit
        if ds.isEmpty || !r4.isEmpty then none
        else some (applyExp m signRest.1 (digitsVal ds))
      else none

/-- Python `float(s)`: optional sign then `pyFloatCore`.  (Whitespace,
underscores, `inf` and `nan` omitted: none can pass the heuristic.) -/
def pyFloat (s : String) : Option Rat :=
  match s.toList with
  | '-' :: rest => (pyFloatCore rest).map Neg.neg
  | '+' :: rest => pyFloatCore rest
  | l => pyFloatCore l

/-- The per-value coercion of lines 166-175: strings passing the
heuristic are parsed (`float` when `E+`/`e+` occurs in the original,
else `float` when `.` occurs, else `int`); a parse failure keeps the
original string (`try`/`except ... pass`); non-strings pass through. -/
def coerceValue (v : JsonValue) : JsonValue :=
  match v with
  | JsonValue.vStr s =>
    if pureNumeric s then
      if strContains s "E+" || strContains s "e+" then
        match pyFloat s with
        | some q => JsonValue.vFloat q
        | none => JsonValue.vStr s
      else if strContains s "." then
        match pyFloat s with
        | some q => JsonValue.vFloat q
        | none => JsonValue.vStr s
      else
        match pyInt s with
        | some n => JsonValue.vInt n
        | none => JsonValue.vStr s
    else JsonValue.vStr s
  | _ => v

/-- Python dict assignment `d[k] = v`: overwrite in place when the key
exists (keeping its insertion position), else append.  (Python dicts
never hold a key twice, so replacing the first occurrence is exact.) -/
def dictInsert : Record → String → JsonValue → Record
  | [], k, v => [(k, v)]
  | p :: d, k, v => if p.1 = k then (k, v) :: d else p :: dictInsert d k v

/-- Python `d.get`-style lookup on our association-list dicts. -/
def dictLookup (d : Record) (k : String) : Option JsonValue :=
  (d.find? (fun p => p.1 = k)).map Prod.snd

/-- The per-record loop of lines 159-177: build `new_record` by
inserting `(FIELD_MAPPING.get(old, old), coerced value)` for each pair
of the input record in iteration order. -/
def standardizeRecord (r : Record) : Record :=
  r.foldl (fun acc p => dictInsert acc (mapField p.1) (coerceValue p.2)) []

/-- The collection driver of lines 154-179: transform each record
independently, preserving order. -/
def standardizeData (data : List Record) : List Record :=
  data.map standardizeRecord

/-! ### Basic facts about the mapping table -/

/-- The table's legacy keys are pairwise distinct. -/
theorem fieldMapping_keys_nodup : (FIELD_MAPPING.map Prod.fst).Nodup := by decide

/-- Every canonical value of the table is a fixed point of `mapField`. -/
theorem fieldMapping_values_fixed :
    FIELD_MAPPING.all (fun p => mapField p.2 = p.2) = true := by decide

/-- On a key-nodup association list, membership determines `find?`. -/
theorem find_of_mem_nodupKeys {β : Type} (l : List (String × β))
    (hnd : (l.map Prod.fst).Nodup) {k : String} {c : β} (h : (k, c) ∈ l) :
    l.find? (fun p => p.1 = k) = some (k, c) := by
  induction l with
  | nil => cases h
  | cons p l ih =>
    rcases List.mem_cons.mp h with h1 | h1
    · subst h1
      simp [List.find?_cons]
    · have hk : p.1 ≠ k := by
        intro hpk
        have : p.1 ∈ l.map Prod.fst := by
          rw [hpk]
          exact List.mem_map.mpr ⟨(k, c), h1, rfl⟩
        exact (List.nodup_cons.mp hnd).1 this
      simp [List.find?_cons, hk]
      exact ih (List.nodup_cons.mp hnd).2 h1

/-- Keys without an entry make `find?` miss. -/
theorem find_none_of_not_mem {β : Type} (l : List (String × β)) {k : String}
    (h : ∀ c, (k, c) ∉ l) : l.find? (fun p => p.1 = k) = none := by
  rw [List.find?_eq_none]
  intro p hp
  simp only [decide_eq_true_eq]
  intro hpk
  exact h p.2 (by rw [← hpk]; exact hp)

theorem mapField_of_find_some {k : String} {p : String × String}
    (h : FIELD_MAPPING.find? (fun q => q.1 = k) = some p) : mapField k = p.2 := by
  simp [mapField, h]

theorem mapField_of_find_none {k : String}
    (h : FIELD_MAPPING.find? (fun q => q.1 = k) = none) : mapField k = k := by
  simp [mapField, h]

/-- C2: The key rewrite is total: a key present in
`FIELD_MAPPING` is sent to its canonical partner, and any other key is
returned unchanged. -/
theorem claim_C2_mapping_total_with_identity_fallback (k : String) :
    (∀ c, (k, c) ∈ FIELD_MAPPING → mapField k = c) ∧
    ((∀ c, (k, c) ∉ FIELD_MAPPING) → mapField k = k) := by
  constructor
  · intro c hc
    exact mapField_of_find_some (find_of_mem_nodupKeys FIELD_MAPPING fieldMapping_keys_nodup hc)
  · intro hc
    exact mapField_of_find_none (find_none_of_not_mem FIELD_MAPPING hc)

/-- Witness for C2 at a mapped key and an unmapped key. -/
theorem claim_C2_witness :
    mapField "LOC_ID" = "locId" ∧ mapField "customField" = "customField" :=
  ⟨(claim_C2_mapping_total_with_identity_fallback "LOC_ID").1 "locId" (by decide),
   (claim_C2_mapping_total_with_identity_fallback "customField").2
     (fun c hc => absurd
       (List.mem_map.mpr ⟨("customField", c), hc, rfl⟩ :
         "customField" ∈ FIELD_MAPPING.map Prod.fst)
       (by decide))⟩

/-- C4: The collection transform preserves length and acts
positionally: the output record at each index is the transform of the
input record at the same index (so each output depends only on its own
input record). -/
theorem claim_C4_collection_positional (data : List Record) :
    (standardizeData data).length = data.length ∧
    ∀ i : Nat, (standardizeData data)[i]? = (data[i]?).map standardizeRecord := by
  refine ⟨by simp [standardizeData], fun i => ?_⟩
  simp [standardizeData]

/-- Python `float("123.45")`, evaluated in the model. -/
theorem pyFloat_123_45 : pyFloat "123.45" = some ((2469 : Rat) / 20) := by
  have h : pyFloat "123.45" =
      some (((123 : Nat) : Rat) + ((45 : Nat) : Rat) / (10 : Rat) ^ (2 : Nat)) := rfl
  rw [h]
  norm_num

/-- Python `float("1.5E+10")`, evaluated in the model. -/
theorem pyFloat_15E10 : pyFloat "1.5E+10" = some ((15000000000 : Rat)) := by
  have h : pyFloat "1.5E+10" =
      some (applyExp (((1 : Nat) : Rat) + ((5 : Nat) : Rat) / (10 : Rat) ^ (1 : Nat)) true 10) :=
    rfl
  rw [h]
  simp [applyExp]
  norm_num

/-- C7: Concrete coercion behaviour: `"123"` becomes the integer
`123`, `"123.45"` the float `123.45`, `"1.5E+10"` the float `1.5e10`,
`"-42"` the integer `-42`, while `"abc"` and `""` stay strings. -/
theorem claim_C7_coercion_examples :
    coerceValue (JsonValue.vStr "123") = JsonValue.vInt 123 ∧
    coerceValue (JsonValue.vStr "123.45") = JsonValue.vFloat (123.45 : Rat) ∧
    coerceValue (JsonValue.vStr "1.5E+10") = JsonValue.vFloat ((15000000000 : Rat)) ∧
    coerceValue (JsonValue.vStr "-42") = JsonValue.vInt (-42) ∧
    coerceValue (JsonValue.vStr "abc") = JsonValue.vStr "abc" ∧
    coerceValue (JsonValue.vStr "") = JsonValue.vStr "" := by
  refine ⟨by decide, ?_, ?_, by decide, by decide, by decide⟩
  · have h1 : pureNumeric "123.45" = true := by decide
    have h2 : (strContains "123.45" "E+" || strContains "123.45" "e+") = false := by decide
    have h3 : strContains "123.45" "." = true := by decide
    have h4 : (123.45 : Rat) = (2469 : Rat) / 20 := by norm_num
    simp [coerceValue, h1, h2, h3, pyFloat_123_45, h4]
  · have h1 : pureNumeric "1.5E+10" = true := by decide
    have h2 : (strContains "1.5E+10" "E+" || strContains "1.5E+10" "e+") = true := by decide
    simp [coerceValue, h1, h2, pyFloat_15E10]

/-! ### Dictionary lemmas -/

/-- Unfolding `dictLookup` on a cons cell. -/
theorem dictLookup_cons (p : String × JsonValue) (d : Record) (k' : String) :
    dictLookup (p :: d) k' = if p.1 = k' then some p.2 else dictLookup d k' := by
  by_cases h : p.1 = k' <;> simp [dictLookup, List.find?_cons, h]

/-- Looking up the freshly assigned key hits the new value; other keys
are untouched. -/
theorem dictLookup_dictInsert (d : Record) (k : String) (v : JsonValue) (k' : String) :
    dictLookup (dictInsert d k v) k' = if k' = k then some v else dictLookup d k' := by
  induction d with
  | nil =>
    by_cases h : k' = k
    · subst h; simp [dictInsert, dictLookup_cons]
    · have h2 : ¬(k = k') := fun hh => h hh.symm
      simp [dictInsert, dictLookup_cons, dictLookup, h, h2]
  | cons p d ih =>
    by_cases hp : p.1 = k
    · rw [show dictInsert (p :: d) k v = (k, v) :: d by simp [dictInsert, hp]]
      rw [dictLookup_cons, dictLookup_cons]
      by_cases hk : k' = k
      · subst hk; simp
      · have h2 : ¬(k = k') := fun hh => hk hh.symm
        have h3 : ¬(p.1 = k') := by rw [hp]; exact h2
        simp [h2, h3, hk]
    · rw [show dictInsert (p :: d) k v = p :: dictInsert d k v by simp [dictInsert, hp]]
      rw [dictLookup_cons, dictLookup_cons, ih]
      by_cases hq : p.1 = k'
      · have hk : ¬(k' = k) := fun hh => hp (by rw [hq, hh])
        simp [hq, hk]
      · simp [hq]

/-- Assigning a key leaves the key sequence unchanged when the key is
already present, else appends it. -/
theorem dictInsert_keys (d : Record) (k : String) (v : JsonValue) :
    (dictInsert d k v).map Prod.fst =
      if k ∈ d.map Prod.fst then d.map Prod.fst else d.map Prod.fst ++ [k] := by
  induction d with
  | nil => simp [dictInsert]
  | cons p d ih =>
    by_cases hp : p.1 = k
    · simp [dictInsert, hp]
    · have hk : ¬(k = p.1) := fun hh => hp hh.symm
      simp only [dictInsert, hp, if_false, ite_false, List.map_cons, ih, List.mem_cons, hk,
        false_or]
      by_cases hm : k ∈ d.map Prod.fst <;> simp [hm]

/-- Key-nodupness is preserved by `dictInsert`. -/
theorem dictInsert_keys_nodup (d : Record) (k : String) (v : JsonValue)
    (h : (d.map Prod.fst).Nodup) : ((dictInsert d k v).map Prod.fst).Nodup := by
  rw [dictInsert_keys]
  by_cases hm : k ∈ d.map Prod.fst
  · simpa [hm] using h
  · simp only [hm, if_false, ite_false]
    rw [List.nodup_append]
    refine ⟨h, List.nodup_singleton k, fun a ha hb => ?_⟩
    rw [List.mem_singleton] at hb
    exact hm (hb ▸ ha)

/-- Every pair of the updated dict is the new pair or an old one. -/
theorem mem_dictInsert (d : Record) (k : String) (v : JsonValue)
    (q : String × JsonValue) (h : q ∈ dictInsert d k v) : q = (k, v) ∨ q ∈ d := by
  induction d with
  | nil => simp [dictInsert] at h; simp [h]
  | cons p d ih =>
    by_cases hp : p.1 = k
    · rw [show dictInsert (p :: d) k v = (k, v) :: d by simp [dictInsert, hp]] at h
      rcases List.mem_cons.mp h with h1 | h1
      · exact Or.inl h1
      · exact Or.inr (List.mem_cons.mpr (Or.inr h1))
    · rw [show dictInsert (p :: d) k v = p :: dictInsert d k v by simp [dictInsert, hp]] at h
      rcases List.mem_cons.mp h with h1 | h1
      · exact Or.inr (List.mem_cons.mpr (Or.inl h1))
      · rcases ih h1 with h2 | h2
        · exact Or.inl h2
        · exact Or.inr (List.mem_cons.mpr (Or.inr h2))

/-- One loop iteration of the record transform, snoc form. -/
theorem standardizeRecord_concat (r : Record) (p : String × JsonValue) :
    standardizeRecord (r ++ [p]) =
      dictInsert (standardizeRecord r) (mapField p.1) (coerceValue p.2) := by
  simp [standardizeRecord, List.foldl_append]

/-- The transformed record never repeats a key. -/
theorem standardizeRecord_keys_nodup (r : Record) :
    ((standardizeRecord r).map Prod.fst).Nodup := by
  induction r using List.reverseRecOn with
  | nil => simp [standardizeRecord]
  | append_singleton r p ih =>
    rw [standardizeRecord_concat]
    exact dictInsert_keys_nodup _ _ _ ih

/-- Looking up a canonical key in the transformed record returns the
coerced value of the last input pair mapping to it. -/
theorem lookup_standardize (r : Record) (c : String) :
    dictLookup (standardizeRecord r) c =
      ((r.filter (fun q => mapField q.1 = c)).getLast?).map (fun q => coerceValue q.2) := by
  induction r using List.reverseRecOn with
  | nil => simp [standardizeRecord, dictLookup]
  | append_singleton r p ih =>
    rw [standardizeRecord_concat, dictLookup_dictInsert, List.filter_append]
    by_cases hp : mapField p.1 = c
    · simp [hp, List.getLast?_concat]
    · have hc : ¬(c = mapField p.1) := fun hh => hp hh.symm
      simp [hp, hc, ih]

/-- On a key-nodup dict, filtering by a key yields the `find?` result. -/
theorem filter_key_eq_of_nodup (d : Record) (c : String)
    (h : (d.map Prod.fst).Nodup) :
    d.filter (fun q => q.1 = c) = (d.find? (fun q => q.1 = c)).toList := by
  induction d with
  | nil => rfl
  | cons p d ih =>
    rcases List.nodup_cons.mp h with ⟨hp, hd⟩
    by_cases hc : p.1 = c
    · have hnil : d.filter (fun q => q.1 = c) = [] := by
        rw [List.filter_eq_nil_iff]
        intro q hq
        simp only [decide_eq_true_eq]
        intro hqc
        exact hp (by rw [hc, ← hqc]; exact List.mem_map.mpr ⟨q, hq, rfl⟩)
      simp [List.filter_cons, List.find?_cons, hc, hnil]
    · simp [List.filter_cons, List.find?_cons, hc, ih hd]

/-- Every pair of the transformed record arises from an input pair. -/
theorem mem_standardize_exists (r : Record) (p : String × JsonValue)
    (h : p ∈ standardizeRecord r) : ∃ q ∈ r, p = (mapField q.1, coerceValue q.2) := by
  induction r using List.reverseRecOn with
  | nil => simp [standardizeRecord] at h
  | append_singleton r q ih =>
    rw [standardizeRecord_concat] at h
    rcases mem_dictInsert _ _ _ _ h with h1 | h1
    · exact ⟨q, by simp, h1⟩
    · obtain ⟨q', hq', he⟩ := ih h1
      exact ⟨q', by simp [hq'], he⟩

/-- Every input key ends up represented by its canonical key. -/
theorem mem_keys_standardize (r : Record) (q : String × JsonValue) (h : q ∈ r) :
    mapField q.1 ∈ (standardizeRecord r).map Prod.fst := by
  have hl := lookup_standardize r (mapField q.1)
  have hfil : q ∈ r.filter (fun x => mapField x.1 = mapField q.1) :=
    List.mem_filter.mpr ⟨h, by simp⟩
  have hne : r.filter (fun x => mapField x.1 = mapField q.1) ≠ [] := by
    intro hnil
    rw [hnil] at hfil
    cases hfil
  obtain ⟨w, hw⟩ := Option.isSome_iff_exists.mp (List.getLast?_isSome.mpr hne)
  rw [hw] at hl
  unfold dictLookup at hl
  cases hf : (standardizeRecord r).find? (fun x => x.1 = mapField q.1) with
  | none => rw [hf] at hl; simp at hl
  | some x =>
    have hx : x ∈ standardizeRecord r := List.mem_of_find?_eq_some hf
    have hx1 : x.1 = mapField q.1 := by simpa using List.find?_some hf
    rw [← hx1]
    exact List.mem_map.mpr ⟨x, hx, rfl⟩

/-- C3: If any input key maps to canonical key `c`, the transformed
record holds exactly one entry for `c`, whose value is the coerced
value of the last input pair (in iteration order) mapping to `c`:
earlier same-canonical-key pairs are silently overwritten. -/
theorem claim_C3_collision_last_wins (r : Record) (c : String) (p : String × JsonValue)
    (h : (r.filter (fun q => mapField q.1 = c)).getLast? = some p) :
    (standardizeRecord r).filter (fun q => q.1 = c) = [(c, coerceValue p.2)] := by
  have hl := lookup_standardize r c
  rw [h] at hl
  rw [filter_key_eq_of_nodup _ _ (standardizeRecord_keys_nodup r)]
  unfold dictLookup at hl
  cases hf : (standardizeRecord r).find? (fun q => q.1 = c) with
  | none => rw [hf] at hl; simp at hl
  | some x =>
    rw [hf] at hl
    simp only [Option.map_some'] at hl
    have hx1 : x.1 = c := by simpa using List.find?_some hf
    have hx2 : x.2 = coerceValue p.2 := Option.some.inj hl
    obtain ⟨x1, x2⟩ := x
    simp only at hx1 hx2
    simp [Option.toList, hx1, hx2]

/-- Witness for C3: `LOC_ID` and a literal `locId` key collide; the
later pair's value survives as the only `locId` entry. -/
theorem claim_C3_witness :
    (standardizeRecord
        [("LOC_ID", JsonValue.vStr "ABC"), ("locId", JsonValue.vStr "X")]).filter
      (fun q => q.1 = "locId") = [("locId", JsonValue.vStr "X")] := by
  have h := claim_C3_collision_last_wins
    [("LOC_ID", JsonValue.vStr "ABC"), ("locId", JsonValue.vStr "X")] "locId"
    ("locId", JsonValue.vStr "X") (by decide)
  have h2 : coerceValue (JsonValue.vStr "X") = JsonValue.vStr "X" := by decide
  rw [h2] at h
  exact h

/-- C9: Key-set invariants of the record transform: the output
keys are nodup (each input key is represented by exactly one output
entry), every output key is the image of some input key, and each
output key is either a canonical key of the table or an unmapped
original key of the input. -/
theorem claim_C9_key_set_invariants (r : Record) :
    ((standardizeRecord r).map Prod.fst).Nodup ∧
    (∀ p ∈ standardizeRecord r,
      (∃ q ∈ r, p.1 = mapField q.1) ∧
      (p.1 ∈ FIELD_MAPPING.map Prod.snd ∨
        (p.1 ∈ r.map Prod.fst ∧ p.1 ∉ FIELD_MAPPING.map Prod.fst))) ∧
    (∀ q ∈ r, mapField q.1 ∈ (standardizeRecord r).map Prod.fst) := by
  refine ⟨standardizeRecord_keys_nodup r, fun p hp => ?_,
    fun q hq => mem_keys_standardize r q hq⟩
  obtain ⟨q, hq, he⟩ := mem_standardize_exists r p hp
  refine ⟨⟨q, hq, ?_⟩, ?_⟩
  · rw [he]
  cases hf : FIELD_MAPPING.find? (fun x => x.1 = q.1) with
  | some pr =>
    left
    have hm : mapField q.1 = pr.2 := mapField_of_find_some hf
    rw [he]
    simp only [hm]
    exact List.mem_map.mpr ⟨pr, List.mem_of_find?_eq_some hf, rfl⟩
  | none =>
    right
    have hid : mapField q.1 = q.1 := mapField_of_find_none hf
    constructor
    · rw [he]
      simp only [hid]
      exact List.mem_map.mpr ⟨q, hq, rfl⟩
    · rw [he]
      simp only [hid]
      intro hmem
      obtain ⟨pr, hpr, hpr1⟩ := List.mem_map.mp hmem
      rw [List.find?_eq_none] at hf
      have hnp : ¬(pr.1 = q.1) := by simpa using hf pr hpr
      exact hnp hpr1

/-- Witness for C9: the mapped key of a one-field record appears among
the output keys. -/
theorem claim_C9_witness :
    mapField "LOC_ID" ∈
      (standardizeRecord [("LOC_ID", JsonValue.vNull)]).map Prod.fst :=
  (claim_C9_key_set_invariants [("LOC_ID", JsonValue.vNull)]).2.2
    ("LOC_ID", JsonValue.vNull) (by decide)

/-- C10: The coerced value written for a field value is a function
of the value alone: two runs on different records, keys and positions
whose winning pair carries the same value produce the same stored
value at the respective canonical keys. -/
theorem claim_C10_coercion_key_independent (r₁ r₂ : Record) (c₁ c₂ k₁ k₂ : String)
    (v : JsonValue)
    (h₁ : (r₁.filter (fun q => mapField q.1 = c₁)).getLast? = some (k₁, v))
    (h₂ : (r₂.filter (fun q => mapField q.1 = c₂)).getLast? = some (k₂, v)) :
    dictLookup (standardizeRecord r₁) c₁ = dictLookup (standardizeRecord r₂) c₂ := by
  rw [lookup_standardize, lookup_standardize, h₁, h₂]
  rfl

/-- Witness for C10: the value `"5"` under the mapped key `LOC_ID` and
under the unmapped key `x` coerces identically. -/
theorem claim_C10_witness :
    dictLookup (standardizeRecord [("LOC_ID", JsonValue.vStr "5")]) "locId" =
      dictLookup (standardizeRecord [("x", JsonValue.vStr "5")]) "x" :=
  claim_C10_coercion_key_independent _ _ "locId" "x" "LOC_ID" "x"
    (JsonValue.vStr "5") (by decide) (by decide)

/-! ### Idempotence -/

/-- The key rewrite is idempotent: every canonical value of the table
is itself mapped to itself (checked over the whole table), and
unmapped keys are fixed points. -/
theorem mapField_idem (k : String) : mapField (mapField k) = mapField k := by
  cases hf : FIELD_MAPPING.find? (fun p => p.1 = k) with
  | none =>
    rw [mapField_of_find_none hf]
    exact mapField_of_find_none hf
  | some p =>
    have hp : p ∈ FIELD_MAPPING := List.mem_of_find?_eq_some hf
    have hv : mapField p.2 = p.2 := by
      have hall := fieldMapping_values_fixed
      rw [List.all_eq_true] at hall
      simpa using hall p hp
    rw [mapField_of_find_some hf]
    exact hv

/-- The coercion of a string is a float, an int, or the same string. -/
theorem coerceValue_result (s : String) :
    (∃ q, coerceValue (JsonValue.vStr s) = JsonValue.vFloat q) ∨
    (∃ n, coerceValue (JsonValue.vStr s) = JsonValue.vInt n) ∨
    coerceValue (JsonValue.vStr s) = JsonValue.vStr s := by
  by_cases h1 : pureNumeric s
  · by_cases h2 : (strContains s "E+" || strContains s "e+") = true
    · cases hf : pyFloat s with
      | none => right; right; simp [coerceValue, h1, h2, hf]
      | some q => left; exact ⟨q, by simp [coerceValue, h1, h2, hf]⟩
    · have h2' : (strContains s "E+" || strContains s "e+") = false := by
        simpa using h2
      by_cases h3 : strContains s "."
      · cases hf : pyFloat s with
        | none => right; right; simp [coerceValue, h1, h2', h3, hf]
        | some q => left; exact ⟨q, by simp [coerceValue, h1, h2', h3, hf]⟩
      · cases hf : pyInt s with
        | none => right; right; simp [coerceValue, h1, h2', h3, hf]
        | some n => right; left; exact ⟨n, by simp [coerceValue, h1, h2', h3, hf]⟩
  · right; right; simp [coerceValue, h1]

/-- Coercing twice changes nothing more than coercing once. -/
theorem coerceValue_idem (v : JsonValue) : coerceValue (coerceValue v) = coerceValue v := by
  cases v with
  | vStr s =>
    rcases coerceValue_result s with ⟨q, hq⟩ | ⟨n, hn⟩ | hs
    · rw [hq]
      rfl
    · rw [hn]
      rfl
    · rw [hs]
      exact hs
  | vInt n => rfl
  | vFloat q => rfl
  | vBool b => rfl
  | vNull => rfl

/-- Assigning an absent key appends it. -/
theorem dictInsert_of_not_mem (d : Record) (k : String) (v : JsonValue)
    (h : k ∉ d.map Prod.fst) : dictInsert d k v = d ++ [(k, v)] := by
  induction d with
  | nil => rfl
  | cons p d ih =>
    have hp : ¬(p.1 = k) := fun hh =>
      h (by rw [← hh]; exact List.mem_map.mpr ⟨p, List.mem_cons_self p d, rfl⟩)
    have h2 : k ∉ d.map Prod.fst := fun hh => h (by simp [hh])
    simp [dictInsert, hp, ih h2]

/-- Folding the transform step over a key-nodup dict whose pairs are
already fixed by the key rewrite and the coercion just rebuilds it. -/
theorem foldl_insert_of_fixed (d : Record) :
    ∀ acc : Record,
      (∀ q ∈ d, q.1 ∉ acc.map Prod.fst) →
      (d.map Prod.fst).Nodup →
      (∀ q ∈ d, mapField q.1 = q.1 ∧ coerceValue q.2 = q.2) →
      d.foldl (fun a p => dictInsert a (mapField p.1) (coerceValue p.2)) acc = acc ++ d := by
  induction d with
  | nil => intro acc _ _ _; simp
  | cons p d ih =>
    intro acc hdisj hnd hid
    obtain ⟨hm, hc⟩ := hid p (List.mem_cons_self p d)
    have hstep : dictInsert acc (mapField p.1) (coerceValue p.2) = acc ++ [p] := by
      rw [hm, hc, dictInsert_of_not_mem acc p.1 p.2 (hdisj p (List.mem_cons_self p d))]
    rw [List.foldl_cons, hstep]
    rw [ih (acc ++ [p]) ?disj (List.nodup_cons.mp hnd).2
      (fun q hq => hid q (List.mem_cons_of_mem p hq))]
    · simp
    case disj =>
      intro q hq
      rw [List.map_append, List.mem_append]
      rintro (h1 | h1)
      · exact hdisj q (List.mem_cons_of_mem p hq) h1
      · have hq1 : q.1 = p.1 := by simpa using h1
        exact (List.nodup_cons.mp hnd).1
          (hq1 ▸ List.mem_map.mpr ⟨q, hq, rfl⟩)

/-- C8: The record transform is idempotent: applying it twice
yields the same output record as applying it once. -/
theorem claim_C8_record_transform_idempotent (r : Record) :
    standardizeRecord (standardizeRecord r) = standardizeRecord r := by
  have hid : ∀ q ∈ standardizeRecord r, mapField q.1 = q.1 ∧ coerceValue q.2 = q.2 := by
    intro q hq
    obtain ⟨q', _, he⟩ := mem_standardize_exists r q hq
    constructor
    · rw [he]
      exact mapField_idem q'.1
    · rw [he]
      exact coerceValue_idem q'.2
  have h := foldl_insert_of_fixed (standardizeRecord r) []
    (by intro q _ hq; simp at hq) (standardizeRecord_keys_nodup r) hid
  simpa [standardizeRecord] using h

/-! ### The coercion contract (C1, C5) -/

/-- C1: Per-value coercion behaviour: non-strings pass through
unchanged; a string is changed only if its stripped form is all digit
characters; and a changed string was parsed as a float when the
original contains `E+` or `e+`, as a float when it merely contains
`.`, and as an integer otherwise. -/
theorem claim_C1_coercion_dispatch (v : JsonValue) :
    ((∀ s, v ≠ JsonValue.vStr s) → coerceValue v = v) ∧
    (∀ s, v = JsonValue.vStr s →
      (coerceValue v ≠ v → (strippedChars s).all Char.isDigit = true) ∧
      ((strContains s "E+" || strContains s "e+") = true → coerceValue v ≠ v →
        ∃ q, coerceValue v = JsonValue.vFloat q ∧ pyFloat s = some q) ∧
      ((strContains s "E+" || strContains s "e+") = false → strContains s "." = true →
        coerceValue v ≠ v →
        ∃ q, coerceValue v = JsonValue.vFloat q ∧ pyFloat s = some q) ∧
      ((strContains s "E+" || strContains s "e+") = false → strContains s "." = false →
        coerceValue v ≠ v →
        ∃ n, coerceValue v = JsonValue.vInt n ∧ pyInt s = some n)) := by
  constructor
  · intro hns
    cases v with
    | vStr s => exact absurd rfl (hns s)
    | vInt n => rfl
    | vFloat q => rfl
    | vBool b => rfl
    | vNull => rfl
  · intro s hv
    subst hv
    refine ⟨?_, ?_, ?_, ?_⟩
    · intro hne
      by_cases h1 : pureNumeric s
      · have h1' : pureNumeric s = true := h1
        simp only [pureNumeric, pyIsDigit, Bool.and_eq_true] at h1'
        exact h1'.2
      · exact absurd (by simp [coerceValue, h1]) hne
    · intro hexp hne
      by_cases h1 : pureNumeric s
      · cases hf : pyFloat s with
        | none => exact absurd (by simp [coerceValue, h1, hexp, hf]) hne
        | some q => exact ⟨q, by simp [coerceValue, h1, hexp, hf], rfl⟩
      · exact absurd (by simp [coerceValue, h1]) hne
    · intro hexp hdot hne
      by_cases h1 : pureNumeric s
      · cases hf : pyFloat s with
        | none => exact absurd (by simp [coerceValue, h1, hexp, hdot, hf]) hne
        | some q => exact ⟨q, by simp [coerceValue, h1, hexp, hdot, hf], rfl⟩
      · exact absurd (by simp [coerceValue, h1]) hne
    · intro hexp hdot hne
      by_cases h1 : pureNumeric s
      · cases hf : pyInt s with
        | none => exact absurd (by simp [coerceValue, h1, hexp, hdot, hf]) hne
        | some n => exact ⟨n, by simp [coerceValue, h1, hexp, hdot, hf], rfl⟩
      · exact absurd (by simp [coerceValue, h1]) hne

/-- Witness for C1: `"123"` is coerced through the integer branch. -/
theorem claim_C1_witness :
    ∃ n, coerceValue (JsonValue.vStr "123") = JsonValue.vInt n ∧ pyInt "123" = some n :=
  ((claim_C1_coercion_dispatch (JsonValue.vStr "123")).2 "123" rfl).2.2.2
    (by decide) (by decide) (by decide)

/-- C5: When a heuristic-passing string fails to parse, the
original string value is kept and no error escapes (the model's
parsers return `Option`, so the coercion is total by construction). -/
theorem claim_C5_parse_failure_keeps_string (s : String)
    (hnum : pureNumeric s = true) :
    (((strContains s "E+" || strContains s "e+") = true ∨ strContains s "." = true) →
      pyFloat s = none → coerceValue (JsonValue.vStr s) = JsonValue.vStr s) ∧
    ((strContains s "E+" || strContains s "e+") = false → strContains s "." = false →
      pyInt s = none → coerceValue (JsonValue.vStr s) = JsonValue.vStr s) := by
  constructor
  · rintro (hexp | hdot) hf
    · simp [coerceValue, hnum, hexp, hf]
    · by_cases hexp : (strContains s "E+" || strContains s "e+") = true
      · simp [coerceValue, hnum, hexp, hf]
      · have hexp' : (strContains s "E+" || strContains s "e+") = false := by
          simpa using hexp
        simp [coerceValue, hnum, hexp', hdot, hf]
  · intro hexp hdot hf
    simp [coerceValue, hnum, hexp, hdot, hf]

/-- Witness for C5: `"--5"` passes the heuristic, `int("--5")` fails,
and the string survives unchanged. -/
theorem claim_C5_witness :
    coerceValue (JsonValue.vStr "--5") = JsonValue.vStr "--5" :=
  (claim_C5_parse_failure_keeps_string "--5" (by decide)).2
    (by decide) (by decide) (by decide)

/-! ### The heuristic's edge cases (C6) -/

/-- C6 counterexample: `"."` becomes empty after stripping, yet
the heuristic rejects it: Python's `''.isdigit()` is `False`, so the
claim that every string stripping to empty is accepted fails. -/
theorem claim_C6_counterexample :
    strippedChars "." = [] ∧ pureNumeric "." = false := by decide

/-- A list containing a non-digit fails `pyIsDigit`. -/
theorem pyIsDigit_false_of_mem (l : List Char) (c : Char) (hc : c ∈ l)
    (hd : c.isDigit = false) : pyIsDigit l = false := by
  have hall : l.all Char.isDigit = false := by
    apply Bool.eq_false_iff.mpr
    intro hall
    rw [List.all_eq_true] at hall
    have := hall c hc
    rw [hd] at this
    cases this
  simp [pyIsDigit, hall]

/-- The head of a contained pattern occurs in the list. -/
theorem head_mem_of_containsSub (p : Char) (ps l : List Char)
    (h : containsSub (p :: ps) l = true) : p ∈ l := by
  induction l with
  | nil => simp [containsSub] at h
  | cons c cs ih =>
    rw [containsSub, Bool.or_eq_true] at h
    rcases h with h1 | h1
    · rw [ List.isPrefixOf_iff_prefix] at h1
      rcases List.cons_prefix_cons.mp h1 with ⟨he, _⟩
      exact he ▸ List.mem_cons_self c cs
    · exact List.mem_cons_of_mem c (ih h1)

/-- A member is found as a one-character substring. -/
theorem containsSub_singleton_of_mem (c : Char) (l : List Char) (h : c ∈ l) :
    containsSub [c] l = true := by
  induction l with
  | nil => cases h
  | cons a as ih =>
    rw [containsSub, Bool.or_eq_true]
    rcases List.mem_cons.mp h with h1 | h1
    · subst h1
      left
      rw [ List.isPrefixOf_iff_prefix]
      exact ⟨as, rfl⟩
    · right
      exact ih h1

/-- Without any `+` character the `E+`/`e+` removal does nothing. -/
theorem removeEPlus_of_no_plus (u : Char) (l : List Char) (h : '+' ∉ l) :
    removeEPlus u l = l := by
  induction l with
  | nil => rfl
  | cons a as ih =>
    cases as with
    | nil => rfl
    | cons b bs =>
      have hb : ¬(a = u ∧ b = '+') := fun hab =>
        h (hab.2 ▸ List.mem_cons_of_mem a (List.mem_cons_self b bs))
      rw [show removeEPlus u (a :: b :: bs) = a :: removeEPlus u (b :: bs) by
        simp [removeEPlus, hb]]
      rw [ih (fun hm => h (List.mem_cons_of_mem a hm))]

/-- A head different from the marker survives one removal step. -/
theorem removeEPlus_cons_ne (u a : Char) (h : a ≠ u) (l : List Char) :
    removeEPlus u (a :: l) = a :: removeEPlus u l := by
  cases l with
  | nil => rfl
  | cons b bs =>
    have hn : ¬(a = u ∧ b = '+') := fun hab => h hab.1
    simp [removeEPlus, hn]

/-- C6 amended: The heuristic accepts the malformed strings
`"1.2.3"` and `"--5"`; it REJECTS (not accepts) every string that
becomes empty after stripping, because `''.isdigit()` is false; it
rejects every string containing `e-` that contains no `+` character
(a later `+` can combine with `-` removal into an `e+` pattern, e.g.
`"1e-+2"` is accepted); and it rejects every string with a leading
`+`. -/
theorem claim_C6_heuristic_edge_cases :
    pureNumeric "1.2.3" = true ∧
    pureNumeric "--5" = true ∧
    (∀ s, strippedChars s = [] → pureNumeric s = false) ∧
    (∀ s, strContains s "e-" = true → strContains s "+" = false → pureNumeric s = false) ∧
    (∀ l : List Char, pureNumeric (String.mk ('+' :: l)) = false) := by
  refine ⟨by decide, by decide, ?_, ?_, ?_⟩
  · intro s hs
    simp [pureNumeric, hs, pyIsDigit]
  · intro s he hplus
    have hel : 'e' ∈ s.toList :=
      head_mem_of_containsSub 'e' ['-'] s.toList he
    have hpl : '+' ∉ s.toList := by
      intro hmem
      have hc := containsSub_singleton_of_mem '+' s.toList hmem
      rw [show strContains s "+" = containsSub ['+'] s.toList from rfl, hc] at hplus
      cases hplus
    have hp2 : '+' ∉ (s.toList.filter (fun c => c ≠ '.')).filter (fun c => c ≠ '-') :=
      fun hh => hpl (List.mem_of_mem_filter (List.mem_of_mem_filter hh))
    have hstr : strippedChars s =
        (s.toList.filter (fun c => c ≠ '.')).filter (fun c => c ≠ '-') := by
      rw [strippedChars, removeEPlus_of_no_plus 'E' _ hp2, removeEPlus_of_no_plus 'e' _ hp2]
    have he2 : 'e' ∈ (s.toList.filter (fun c => c ≠ '.')).filter (fun c => c ≠ '-') :=
      List.mem_filter.mpr ⟨List.mem_filter.mpr ⟨hel, by decide⟩, by decide⟩
    rw [pureNumeric, hstr]
    exact pyIsDigit_false_of_mem _ 'e' he2 (by decide)
  · intro l
    have h1 : ('+' :: l).filter (fun c => c ≠ '.') =
        '+' :: l.filter (fun c => c ≠ '.') := by simp
    have h2 : ('+' :: l.filter (fun c => c ≠ '.')).filter (fun c => c ≠ '-') =
        '+' :: (l.filter (fun c => c ≠ '.')).filter (fun c => c ≠ '-') := by simp
    rw [pureNumeric, strippedChars,
      show (String.mk ('+' :: l)).toList = '+' :: l from rfl, h1, h2,
      removeEPlus_cons_ne 'E' '+' (by decide), removeEPlus_cons_ne 'e' '+' (by decide)]
    exact pyIsDigit_false_of_mem _ '+' (List.mem_cons_self _ _) (by decide)

/-- Witness for C6 (amended): a standard lowercase negative exponent
is rejected by the heuristic. -/
theorem claim_C6_witness : pureNumeric "1e-5" = false :=
  claim_C6_heuristic_edge_cases.2.2.2.1 "1e-5" (by decide) (by decide)
